import Mathlib

/-!
# A verification development for the strudel pattern engine

This file gives a shallow embedding, in Lean 4, of the core of the strudel
pattern engine (`pattern.mjs` and `signal.mjs` of `packages/core`), and proves
or refutes a number of claims of the engine's specification against it.

Conventions of the embedding:

* All time quantities are exact rationals (`ℚ`), as in the source, which uses
  the `fraction.js` library throughout.
* `timespan.mjs`, `hap.mjs`, `state.mjs` and `fraction.mjs` are not part of
  the provided sources; the definitions for them below are modelled from the
  specification's data-model section (`sam`/floor, half-open spans,
  intersection with exclusive endpoints, `spanCycles` splitting at the
  integer boundaries strictly inside the span) and are marked
  `Modelled from the spec:` in their doc comments.
* The query `State` carries a span plus a control map; no operation embedded
  here reads the controls, so a state is represented by its span.
* The `context` bag of an event (source locations, colour, trigger callbacks)
  is append-only metadata never inspected by the combinators below and is
  omitted from the `Hap` record.
* The process-wide `computeSteps` flag (`__steps`) is modelled as permanently
  `true`, its startup default.
* Registered operators (`register`) reach the plain underlying function when
  called with scalar arguments (the `__pure` fast path); the embeddings below
  are those underlying functions, which is what the claims exercise.
-/

namespace Strudel

/-- Modelled from the spec: a timespan is a half-open interval
`[begin, end)` over rationals.  The `end` field is called `stop` here because
`end` is a reserved word in Lean. -/
structure TimeSpan where
  begin : ℚ
  stop : ℚ
  deriving DecidableEq, Repr

/-- Modelled from the spec: `sam` floors a time point to the nearest integer
below, the start of the cycle containing it. -/
def sam (t : ℚ) : ℚ := (⌊t⌋ : ℚ)

/-- Modelled from the spec: `nextSam` is the start of the next cycle. -/
def nextSam (t : ℚ) : ℚ := sam t + 1

/-- Modelled from the spec: the whole cycle containing the time point. -/
def wholeCycle (t : ℚ) : TimeSpan := ⟨sam t, nextSam t⟩

namespace TimeSpan

/-- Modelled from the spec: maps both ends of the timespan. -/
def withTime (f : ℚ → ℚ) (s : TimeSpan) : TimeSpan := ⟨f s.begin, f s.stop⟩

/-- Modelled from the spec: applies `f` to both endpoints relative to the
start of the cycle of `begin` (used by `zoom`). -/
def withCycle (f : ℚ → ℚ) (s : TimeSpan) : TimeSpan :=
  ⟨sam s.begin + f (s.begin - sam s.begin), sam s.begin + f (s.stop - sam s.begin)⟩

/-- Modelled from the spec: intersection of two timespans, `none` when they
do not overlap.  Adjacent endpoints do not intersect: a shared endpoint only
yields a (zero-width) intersection when it is not the exclusive `end` of a
positive-width operand. -/
def sect (a b : TimeSpan) : Option TimeSpan :=
  let ib := max a.begin b.begin
  let ie := min a.stop b.stop
  if ie < ib then none
  else if ib = ie then
    if ib = a.stop ∧ a.begin < a.stop then none
    else if ib = b.stop ∧ b.begin < b.stop then none
    else some ⟨ib, ie⟩
  else some ⟨ib, ie⟩

/-- Modelled from the spec: `intersection_e`, the intersection where the
source raises an exception when the spans do not overlap.  Every use below is
on spans that provably overlap (they share a sub-span), where the function
returns the clipped span, which is what this total version always returns. -/
def sectE (a b : TimeSpan) : TimeSpan :=
  ⟨max a.begin b.begin, min a.stop b.stop⟩

/-- Auxiliary recursion for `spanCycles`; `fuel` bounds the number of cycle
boundaries crossed. -/
def spanCyclesGo : ℕ → ℚ → ℚ → List TimeSpan
  | 0, _, _ => []
  | fuel + 1, b, e =>
    if e ≤ b then []
    else if e ≤ ⌊b⌋ + 1 then [⟨b, e⟩]
    else ⟨b, ⌊b⌋ + 1⟩ :: spanCyclesGo fuel (⌊b⌋ + 1) e

/-- Modelled from the spec: the ordered list of sub-timespans obtained by
splitting the span at every integer boundary strictly inside `(begin, end)`;
a zero-width span yields itself, an inverted span yields nothing. -/
def spanCycles (s : TimeSpan) : List TimeSpan :=
  if s.begin = s.stop then [s]
  else spanCyclesGo (⌈s.stop⌉ - ⌊s.begin⌋).toNat s.begin s.stop

end TimeSpan

/-- An event (`hap.mjs`, modelled from the spec): `part` is the reported
slice, `whole` the full lifetime (`none` for continuous events).  The
`context` bag is not modelled (see the header). -/
structure Hap (α : Type) where
  whole : Option TimeSpan
  part : TimeSpan
  value : α
  deriving DecidableEq, Repr

namespace Hap

/-- Modelled from the spec: applies a span function to `part` and, when
present, `whole`. -/
def withSpan (f : TimeSpan → TimeSpan) (h : Hap α) : Hap α :=
  ⟨h.whole.map f, f h.part, h.value⟩

/-- Modelled from the spec: applies a time function to both ends of the
`part` and `whole` timespans. -/
def withTime (f : ℚ → ℚ) (h : Hap α) : Hap α :=
  h.withSpan (TimeSpan.withTime f)

/-- Modelled from the spec: maps the value. -/
def withValue (f : α → β) (h : Hap α) : Hap β :=
  ⟨h.whole, h.part, f h.value⟩

/-- Modelled from the spec: the `whole` when present, otherwise the `part`. -/
def wholeOrPart (h : Hap α) : TimeSpan :=
  h.whole.getD h.part

end Hap

/-- A pattern (`pattern.mjs`): a query function from a state (represented by
its query span) to a list of events, plus the optional stepwise length
`_steps`. -/
structure Pattern (α : Type) where
  query : TimeSpan → List (Hap α)
  steps : Option ℚ := none

namespace Pattern

/-- Source `setSteps` (pattern.mjs). -/
def setSteps (st : Option ℚ) (p : Pattern α) : Pattern α :=
  { p with steps := st }

/-- Source `withSteps` (pattern.mjs): maps `steps` when defined (the `computeSteps`
flag is modelled as on). -/
def withSteps (f : ℚ → ℚ) (p : Pattern α) : Pattern α :=
  ⟨p.query, p.steps.map f⟩

/-- Source `withValue` / `fmap` (pattern.mjs): maps values only, preserving
structure and `steps`. -/
def fmap (f : α → β) (p : Pattern α) : Pattern β :=
  ⟨fun s => (p.query s).map (Hap.withValue f), p.steps⟩

/-- Source `filterHaps` (pattern.mjs). -/
def filterHaps (t : Hap α → Bool) (p : Pattern α) : Pattern α :=
  ⟨fun s => (p.query s).filter t, none⟩

/-- Source `filterValues` (pattern.mjs): keeps events whose value passes the test;
`steps` is preserved via `setSteps`. -/
def filterValues (t : α → Bool) (p : Pattern α) : Pattern α :=
  ⟨fun s => (p.query s).filter (fun h => t h.value), p.steps⟩

/-- Source `splitQueries` (pattern.mjs): issue the query once per cycle-split
sub-span.  The source builds a bare `new Pattern`, so `steps` is dropped. -/
def splitQueries (p : Pattern α) : Pattern α :=
  ⟨fun s => (s.spanCycles.map fun sub => p.query sub).flatten, none⟩

end Pattern

/-- Source `gap(n)` (pattern.mjs): empty pattern with the given steps. -/
def gap (n : ℚ) : Pattern α := ⟨fun _ => [], some n⟩

/-- Source `silence` (pattern.mjs): `gap(1)`. -/
def silence : Pattern α := gap 1

/-- Source `nothing` (pattern.mjs): `gap(0)`. -/
def nothing : Pattern α := gap 0

/-- Source `pure(v)` (pattern.mjs): one event per whole cycle intersected by the
query span; `steps = 1`. -/
def pure (v : α) : Pattern α :=
  ⟨fun s => s.spanCycles.map fun sub => ⟨some (wholeCycle sub.begin), sub, v⟩, some 1⟩

/-- Source `signal(f)` (signal.mjs): a continuous pattern sampling `f` at the query
span's begin; no steps. -/
def signal (f : ℚ → α) : Pattern α :=
  ⟨fun s => [⟨none, s, f s.begin⟩], none⟩

/-- Source `steady(v)` (signal.mjs): a continuous constant. -/
def steady (v : α) : Pattern α :=
  ⟨fun s => [⟨none, s, v⟩], none⟩

/-- Modelled from the spec: the `lcm` of two rationals from `fraction.mjs`
(`lcm(a/b, c/d) = lcm(a,c)/gcd(b,d)`). -/
def qlcm (x y : ℚ) : ℚ :=
  (Nat.lcm x.num.natAbs y.num.natAbs : ℚ) / (Nat.gcd x.den y.den : ℚ)

/-- Modelled from the spec: the variadic `lcm` of `fraction.mjs` folded over
a list of rationals (the source raises on an empty call; `0` stands in for
that unreachable case). -/
def lcmList : List ℚ → ℚ
  | [] => 0
  | x :: xs => xs.foldl qlcm x

/-- Modelled from the spec: variadic `lcm` over optional steps; following the
`mulmaybe` convention of the data model, an undefined operand makes the
result undefined. -/
def lcmOpt (l : List (Option ℚ)) : Option ℚ :=
  if l.all (·.isSome) then
    match l.filterMap id with
    | [] => none
    | xs => some (lcmList xs)
  else none

namespace Pattern

/-- Source `appWhole` (pattern.mjs): the generic applicative.  For every pair of a
function event and a value event whose parts intersect, emit one event on the
intersection; the `whole` is combined by `wholeF`. -/
def appWhole (wholeF : Option TimeSpan → Option TimeSpan → Option TimeSpan)
    (patFunc : Pattern (α → β)) (patVal : Pattern α) : Pattern β :=
  ⟨fun s =>
    ((patFunc.query s).map fun hf =>
      (patVal.query s).filterMap fun hv =>
        (TimeSpan.sect hf.part hv.part).map fun p =>
          ⟨wholeF hf.whole hv.whole, p, hf.value hv.value⟩).flatten,
    none⟩

/-- The `whole` combiner of `appBoth` (pattern.mjs): `undefined` when either
side is, otherwise `intersection_e` (see `TimeSpan.sectE`). -/
def wholeBoth : Option TimeSpan → Option TimeSpan → Option TimeSpan
  | none, _ => none
  | _, none => none
  | some a, some b => some (TimeSpan.sectE a b)

/-- Source `appBoth` (pattern.mjs): wholes are intersected; `steps` is the lcm of
both sides. -/
def appBoth (patFunc : Pattern (α → β)) (patVal : Pattern α) : Pattern β :=
  { appWhole wholeBoth patFunc patVal with
    steps := lcmOpt [patVal.steps, patFunc.steps] }

/-- Source `appLeft` (pattern.mjs): structure from the function (left) pattern; for
each left event the value pattern is queried over the left event's
`wholeOrPart`. -/
def appLeft (patFunc : Pattern (α → β)) (patVal : Pattern α) : Pattern β :=
  ⟨fun s =>
    ((patFunc.query s).map fun hf =>
      (patVal.query hf.wholeOrPart).filterMap fun hv =>
        (TimeSpan.sect hf.part hv.part).map fun p =>
          ⟨hf.whole, p, hf.value hv.value⟩).flatten,
    patFunc.steps⟩

/-- Source `appRight` (pattern.mjs): structure from the value (right) pattern. -/
def appRight (patFunc : Pattern (α → β)) (patVal : Pattern α) : Pattern β :=
  ⟨fun s =>
    ((patVal.query s).map fun hv =>
      (patFunc.query hv.wholeOrPart).filterMap fun hf =>
        (TimeSpan.sect hf.part hv.part).map fun p =>
          ⟨hv.whole, p, hf.value hv.value⟩).flatten,
    patVal.steps⟩

end Pattern

/-- Source `stack(...)` (pattern.mjs): the union of the arms' events; `steps` is the
lcm across arms. -/
def stack (pats : List (Pattern α)) : Pattern α :=
  ⟨fun s => (pats.map (·.query s)).flatten, lcmOpt (pats.map (·.steps))⟩

/-- Source `slowcat(...)` (pattern.mjs): cycle `k` plays pattern `k mod n`, with the
offset subtraction that stops inner patterns from skipping cycles.  A single
pattern is returned as-is; with no patterns the modulo is `NaN` in the source
and the query yields the empty list. -/
def slowcat (pats : List (Pattern α)) : Pattern α :=
  if pats.length = 1 then pats.headD nothing
  else
    let q : TimeSpan → List (Hap α) := fun span =>
      match pats with
      | [] => []
      | _ =>
        let n : ℤ := pats.length
        let patn := (⌊span.begin⌋ % n).toNat
        match pats.get? patn with
        | none => []
        | some pat =>
          let offset : ℚ := (⌊span.begin⌋ : ℚ) - (⌊span.begin / (pats.length : ℚ)⌋ : ℚ)
          ((pat.query (span.withTime (· - offset))).map (Hap.withTime (· + offset)))
    (Pattern.splitQueries ⟨q, none⟩).setSteps (lcmOpt (pats.map (·.steps)))

/-- Source `_fast` (pattern.mjs): the unpatternified body of `fast`, reached with a
`Fraction` factor, where the source's `factor === 0` test compares an object
with a number and never fires.  The source raises on a zero divisor
(`t.div(factor)`); rational division supplies `t/0 = 0` for that unreachable
case. -/
def fastF (factor : ℚ) (p : Pattern α) : Pattern α :=
  ⟨fun s => (p.query (s.withTime (· * factor))).map (Hap.withTime (· / factor)), p.steps⟩

/-- Source `fast(factor)` (pattern.mjs): speed up by `factor`; `0` gives `silence`;
preserves `steps`. -/
def fast (factor : ℚ) (p : Pattern α) : Pattern α :=
  if factor = 0 then silence else fastF factor p

/-- Source `slow(factor)` (pattern.mjs): `0` gives `silence`, otherwise
`_fast(1/factor)`. -/
def slow (factor : ℚ) (p : Pattern α) : Pattern α :=
  if factor = 0 then silence else fastF (1 / factor) p

/-- Source `early(offset)` (pattern.mjs): shift earlier; registered with
`preserveSteps`, so `steps` is kept. -/
def early (offset : ℚ) (p : Pattern α) : Pattern α :=
  ⟨fun s => (p.query (s.withTime (· + offset))).map (Hap.withTime (· - offset)), p.steps⟩

/-- Source `late(offset)` (pattern.mjs): `early(-offset)`. -/
def late (offset : ℚ) (p : Pattern α) : Pattern α :=
  early (0 - offset) p

/-- Source `fastcat(...)` (pattern.mjs): `slowcat` sped up by the number of
patterns, with `steps` set to that number, when there is more than one.  (The
source's one-pattern `__steps_source` branch assigns to the argument array
and has no effect on the result.) -/
def fastcat (pats : List (Pattern α)) : Pattern α :=
  let result := slowcat pats
  if 1 < pats.length then (fastF (pats.length : ℚ) result).setSteps (some (pats.length : ℚ))
  else result

/-- Source `fastGap(factor)` (pattern.mjs): one cycle compressed into `[0, 1/factor]`
of each cycle, with zero-width queries at the next cycle boundary dropped
(`withQuerySpanMaybe`), and the fiddly `whole` reconstruction of `ef`. -/
def fastGap (factor : ℚ) (p : Pattern α) : Pattern α :=
  let ef : Hap α → Hap α := fun hap =>
    let b := hap.part.begin
    let e := hap.part.stop
    let cycle := sam b
    let beginPos := min ((b - cycle) / factor) 1
    let endPos := min ((e - cycle) / factor) 1
    let newPart : TimeSpan := ⟨cycle + beginPos, cycle + endPos⟩
    let newWhole : Option TimeSpan := hap.whole.map fun w =>
      ⟨newPart.begin - (b - w.begin) / factor, newPart.stop + (w.stop - e) / factor⟩
    ⟨newWhole, newPart, hap.value⟩
  Pattern.splitQueries
    ⟨fun span =>
      let cycle := sam span.begin
      let bpos := min ((span.begin - cycle) * factor) 1
      let epos := min ((span.stop - cycle) * factor) 1
      if 1 ≤ bpos then []
      else (p.query ⟨cycle + bpos, cycle + epos⟩).map ef,
    none⟩

/-- Source `compress(b, e)` (pattern.mjs).  The guard returns `silence` for
`b > e`, `b > 1`, `e > 1`, `b < 0` and `e < 0`; when it falls through with
`e - b = 0`, the `Fraction(1).div(e.sub(b))` of the source raises a
division-by-zero in the fraction library, modelled as `.error`. -/
def compress (b e : ℚ) (p : Pattern α) : Except String (Pattern α) :=
  if e < b ∨ 1 < b ∨ 1 < e ∨ b < 0 ∨ e < 0 then .ok silence
  else if e - b = 0 then .error "Division by zero"
  else .ok (late b (fastGap (1 / (e - b)) p))

/-- Source `zoom(s, e)` (pattern.mjs): plays the `[s, e]` slice over each cycle;
degenerate slices give `nothing`; `steps` scales by the slice width. -/
def zoom (s e : ℚ) (p : Pattern α) : Pattern α :=
  if e ≤ s then nothing
  else
    let d := e - s
    (Pattern.splitQueries
      ⟨fun span =>
        (p.query (span.withCycle (fun t => t * d + s))).map
          (Hap.withSpan (TimeSpan.withCycle (fun t => (t - s) / d))),
      none⟩).setSteps (p.steps.map (· * d))

/-- Source `pace(targetSteps)` (pattern.mjs): retime to the target step count.  A
stepless pattern is returned unchanged; zero steps give `nothing`. -/
def pace (targetSteps : ℚ) (p : Pattern α) : Pattern α :=
  match p.steps with
  | none => p
  | some st =>
    if st = 0 then nothing
    else (fastF (targetSteps / st) p).setSteps (some targetSteps)

/-- The slice-building loop of `stepcat`: each non-zero-width slice is
compressed into its proportional window.  (On the inputs `stepcat` passes,
the `compress` error branch is unreachable since every slice has non-zero
width; `silence` stands in for the source's uncaught exception.) -/
def stepcatGo (total : ℚ) : ℚ → List (ℚ × Pattern α) → List (Pattern α)
  | _, [] => []
  | b, (time, p) :: rest =>
    if time = 0 then stepcatGo total b rest
    else
      ((compress (b / total) ((b + time) / total) p).toOption.getD silence) ::
        stepcatGo total (b + time) rest

/-- Source `stepcat(...)` (pattern.mjs), in the bare-pattern call form used
by `shrink`/`grow`/`tour`: each pattern occupies a slice proportional to its
steps (a stepless pattern counts as `steps ?? 1`, so the undefined-time
averaging branch of the source is not reached on this path). -/
def stepcat (pats : List (Pattern α)) : Pattern α :=
  match pats with
  | [] => nothing
  | [p] => ⟨p.query, p.steps.map fun _ => p.steps.getD 1⟩
  | _ =>
    let timepats := pats.map fun p => (p.steps.getD 1, p)
    let total := (timepats.map (·.1)).foldl (· + ·) 0
    (stack (stepcatGo total 0 timepats)).setSteps (some total)

/-- Source `take(i)` (pattern.mjs): keep the first `i` steps (the last `|i|` for
negative `i`). -/
def take (i : ℚ) (p : Pattern α) : Pattern α :=
  match p.steps with
  | none => nothing
  | some st =>
    if st ≤ 0 then nothing
    else if i = 0 then nothing
    else
      let flip := i < 0
      let i' := |i|
      let frac := i' / st
      if frac ≤ 0 then nothing
      else if 1 ≤ frac then p
      else if flip then zoom (1 - frac) 1 p
      else zoom 0 frac p

/-- Source `drop(i)` (pattern.mjs): discard the first (or last) `i` steps, by
taking the rest. -/
def drop (i : ℚ) (p : Pattern α) : Pattern α :=
  match p.steps with
  | none => nothing
  | some st =>
    if i < 0 then take (st + i) p
    else take (0 - (st - i)) p

/-- Source `shrinklist` (pattern.mjs), scalar `amount`: the list of progressive
zooms.  On this path `times` is the pattern's steps, and the source's
`times === 0 || amountv === 0` test compares `Fraction` objects with the
number `0` and never fires.  The loop count `i < times` with the break
conditions becomes a `takeWhile` over `⌈times⌉` indices. -/
def shrinklist (amount : ℚ) (p : Pattern α) : List (Pattern α) :=
  match p.steps with
  | none => [p]
  | some st =>
    let times := st
    if 0 < amount then
      let seg := 1 / st * amount
      ((((List.range (⌈times⌉.toNat)).map fun i => seg * i).takeWhile
          fun s => ¬ 1 < s).map fun s => zoom s 1 p)
    else
      let seg := 1 / st * (0 - amount)
      ((((List.range (⌈times⌉.toNat)).map fun i => 1 - seg * i).takeWhile
          fun e => ¬ e < 0).map fun e => zoom 0 e p)

/-- Source `shrink(amount)` (pattern.mjs): stepcat of the shrinklist; stepless
patterns give `nothing`. -/
def shrink (amount : ℚ) (p : Pattern α) : Pattern α :=
  match p.steps with
  | none => nothing
  | some _ =>
    let list := shrinklist amount p
    (stepcat list).setSteps (some (list.foldl (fun a b => a + b.steps.getD 0) 0))

/-- Source `grow(amount)` (pattern.mjs): the reversed shrinklist of `-amount`;
stepless patterns give `nothing`. -/
def grow (amount : ℚ) (p : Pattern α) : Pattern α :=
  match p.steps with
  | none => nothing
  | some _ =>
    let list := (shrinklist (0 - amount) p).reverse
    (stepcat list).setSteps (some (list.foldl (fun a b => a + b.steps.getD 0) 0))

/-- Source `polymeter(...)` (pattern.mjs), the non-list-argument path: arguments
without steps are discarded; with none left the result is `silence`; a zero
lcm of the step counts gives `nothing`; otherwise every arm is `pace`d to the
lcm. -/
def polymeter (args : List (Pattern α)) : Pattern α :=
  let args := args.filter fun a => a.steps.isSome
  if args.isEmpty then silence
  else
    let steps := lcmList (args.filterMap (·.steps))
    if steps = 0 then nothing
    else (stack (args.map (pace steps))).setSteps (some steps)

/-- Source `zip(...)` (pattern.mjs): arguments without steps are discarded; each arm
is slowed by its own steps, the arms are `slowcat`ed and sped back up by the
lcm of the step counts. -/
def zip (pats : List (Pattern α)) : Pattern α :=
  let pats := pats.filter fun p => p.steps.isSome
  let zipped := slowcat (pats.map fun p => fastF (1 / p.steps.getD 1) p)
  let steps := lcmList (pats.filterMap (·.steps))
  (fastF steps zipped).setSteps (some steps)

/-! ### Deterministic randomness (signal.mjs)

The JavaScript source computes with 64-bit floats and 32-bit integer
bitwise operators.  The integer pipeline is modelled exactly (two's
complement 32-bit words); the float arithmetic around it is exact on the
inputs the theorems below evaluate, so rationals stand in for floats. -/

/-- JS `ToUint32`: the number reduced into `[0, 2^32)`. -/
def toUint32 (x : ℤ) : ℕ := (x % 4294967296).toNat

/-- JS `ToInt32`: the number reduced into `[-2^31, 2^31)`. -/
def toInt32 (x : ℤ) : ℤ :=
  let w := toUint32 x
  if w < 2147483648 then (w : ℤ) else (w : ℤ) - 4294967296

/-- JS `<<` on 32-bit integers. -/
def jsShl (x : ℤ) (n : ℕ) : ℤ := toInt32 (toInt32 x * 2 ^ n)

/-- JS `>>` (sign-propagating shift) on 32-bit integers: floor division. -/
def jsSar (x : ℤ) (n : ℕ) : ℤ := Int.fdiv (toInt32 x) (2 ^ n)

/-- JS `^` on 32-bit integers. -/
def jsXor (a b : ℤ) : ℤ := toInt32 (Nat.xor (toUint32 a) (toUint32 b) : ℕ)

/-- Source `xorwise` (signal.mjs): the xorshift step. -/
def xorwise (x : ℤ) : ℤ :=
  let a := jsXor (jsShl x 13) x
  let b := jsXor (jsSar a 17) a
  jsXor (jsShl b 5) b

/-- JS `Math.trunc` on a rational: round toward zero. -/
def qtrunc (x : ℚ) : ℤ := if 0 ≤ x then ⌊x⌋ else ⌈x⌉

/-- Source `_frac` (signal.mjs): `x - Math.trunc(x)`. -/
def _frac (x : ℚ) : ℚ := x - (qtrunc x : ℚ)

/-- Source `timeToIntSeed` (signal.mjs): stretch 300 cycles over `[0, 2^29)` and
xorshift. -/
def timeToIntSeed (x : ℚ) : ℤ :=
  xorwise (qtrunc (_frac (x / 300) * 536870912))

/-- Source `intSeedToRand` (signal.mjs): `(x % 2^29) / 2^29` with the JS truncating
remainder. -/
def intSeedToRand (x : ℤ) : ℚ := (Int.tmod x 536870912 : ℚ) / 536870912

/-- Source `timeToRand` (signal.mjs). -/
def timeToRand (x : ℚ) : ℚ := |intSeedToRand (timeToIntSeed x)|

/-- Source `rand` (signal.mjs): the continuous random signal. -/
def rand : Pattern ℚ := signal timeToRand

/-- Source `degradeByWith(withPat, x)` (signal.mjs): keep the events of `pat` whose
paired draw from `withPat` passes the filter `v > x` (note: strictly
greater).  Registered with `preserveSteps`, so `steps` comes from `pat`. -/
def degradeByWith (withPat : Pattern ℚ) (x : ℚ) (pat : Pattern α) : Pattern α :=
  ((pat.fmap fun a => fun _ : ℚ => a).appLeft
      (withPat.filterValues fun v => decide (x < v))).setSteps pat.steps

/-- Source `degradeBy(x)` (signal.mjs): `degradeByWith` against `rand`. -/
def degradeBy (x : ℚ) (pat : Pattern α) : Pattern α :=
  degradeByWith rand x pat

/-! ### Query-time exceptions (`queryArc`, pattern.mjs)

A user-supplied callback inside a pattern's query may throw; `queryArc`
wraps the query in a `try`/`catch` that logs through the injected `logger`
and returns the empty list.  The fallible query is modelled with `Except`,
and the logger as the list of emitted log entries. -/

/-- A message sent to the injected `logger(msg, level)`. -/
structure LogMsg where
  message : String
  level : String
  deriving DecidableEq, Repr

/-- A pattern whose query function may raise. -/
structure PatternE (α : Type) where
  query : TimeSpan → Except String (List (Hap α))

/-- Source `queryArc(begin, end)` (pattern.mjs, lines 412-419): query the span,
catching any exception; on an error the message is logged at level `error`
and the empty list is returned.  The result is paired with the log output. -/
def queryArcE (p : PatternE α) (b e : ℚ) : List (Hap α) × List LogMsg :=
  match p.query ⟨b, e⟩ with
  | .ok haps => (haps, [])
  | .error err => ([], [⟨"[query]: " ++ err, "error"⟩])

/-! ### Span lemmas -/

namespace TimeSpan

theorem spanCyclesGo_mem (fuel : ℕ) :
    ∀ (b e : ℚ), ∀ sub ∈ spanCyclesGo fuel b e,
      b ≤ sub.begin ∧ sub.stop ≤ e ∧ sub.begin < sub.stop ∧ sub.stop ≤ ⌊sub.begin⌋ + 1 := by
  induction fuel with
  | zero => intro b e sub hsub; simp [spanCyclesGo] at hsub
  | succ fuel ih =>
    intro b e sub hsub
    rw [spanCyclesGo] at hsub
    split_ifs at hsub with h1 h2
    · simp at hsub
    · simp at hsub
      subst hsub
      refine ⟨le_refl _, le_refl _, by push_neg at h1; exact h1, h2⟩
    · push_neg at h1 h2
      rcases List.mem_cons.mp hsub with h | h
      · subst h
        exact ⟨le_refl _, le_of_lt h2, Int.lt_floor_add_one b, le_refl _⟩
      · obtain ⟨ha, hb, hc, hd⟩ := ih _ _ sub h
        exact ⟨le_trans (le_of_lt (Int.lt_floor_add_one b)) ha, hb, hc, hd⟩

theorem spanCycles_mem (s : TimeSpan) (hwf : s.begin ≤ s.stop) :
    ∀ sub ∈ s.spanCycles,
      s.begin ≤ sub.begin ∧ sub.stop ≤ s.stop ∧ sub.begin ≤ sub.stop ∧
      (s.begin < s.stop → sub.begin < sub.stop) ∧ sub.stop ≤ ⌊sub.begin⌋ + 1 := by
  intro sub hsub
  rw [spanCycles] at hsub
  split_ifs at hsub with h
  · simp at hsub
    subst hsub
    exact ⟨le_refl _, le_refl _, hwf, fun hc => hc, by
      rw [← h]; exact le_of_lt (Int.lt_floor_add_one _)⟩
  · obtain ⟨ha, hb, hc, hd⟩ := spanCyclesGo_mem _ _ _ sub hsub
    exact ⟨ha, hb, le_of_lt hc, fun _ => hc, hd⟩

/-- A well-formed span within a single cycle is its own cycle-split. -/
theorem spanCycles_single (s : TimeSpan) (h1 : s.begin ≤ s.stop)
    (h2 : s.stop ≤ ⌊s.begin⌋ + 1) : s.spanCycles = [s] := by
  rw [spanCycles]
  split_ifs with h
  · rfl
  · have hlt : s.begin < s.stop := lt_of_le_of_ne h1 h
    have hpos : ⌊s.begin⌋ < ⌈s.stop⌉ := by
      rw [Int.lt_ceil]
      exact lt_of_le_of_lt (Int.floor_le _) hlt
    obtain ⟨n, hn⟩ : ∃ n : ℕ, (⌈s.stop⌉ - ⌊s.begin⌋).toNat = n + 1 := by
      have : 1 ≤ (⌈s.stop⌉ - ⌊s.begin⌋).toNat := by omega
      exact ⟨(⌈s.stop⌉ - ⌊s.begin⌋).toNat - 1, by omega⟩
    rw [hn, spanCyclesGo, if_neg (not_le.mpr hlt), if_pos h2]

theorem sect_eq_some {a b c : TimeSpan} (h : sect a b = some c) :
    c = ⟨max a.begin b.begin, min a.stop b.stop⟩ ∧
    max a.begin b.begin ≤ min a.stop b.stop := by
  rw [sect] at h
  split_ifs at h with h1 h2 h3 h4
  · exact ⟨(Option.some.injEq _ _ ▸ h).symm, le_of_eq h2⟩
  · exact ⟨(Option.some.injEq _ _ ▸ h).symm, by push_neg at h1; exact h1⟩

theorem sect_nondeg {a b c : TimeSpan} (ha : a.begin < a.stop) (hb : b.begin < b.stop)
    (h : sect a b = some c) : c.begin < c.stop := by
  obtain ⟨hc, hle⟩ := sect_eq_some h
  subst hc
  rcases lt_or_eq_of_le hle with hlt | heq
  · exact hlt
  · exfalso
    simp only [sect, if_neg (not_lt.mpr hle), if_pos heq] at h
    rcases le_total a.stop b.stop with hab | hab
    · have hmin : a.stop ⊓ b.stop = a.stop := min_eq_left hab
      rw [if_pos ⟨heq.trans hmin, ha⟩] at h
      exact Option.noConfusion h
    · have hmin : a.stop ⊓ b.stop = b.stop := min_eq_right hab
      have hcase : a.begin ⊔ b.begin = b.stop := heq.trans hmin
      by_cases hA : a.begin ⊔ b.begin = a.stop ∧ a.begin < a.stop
      · rw [if_pos hA] at h
        exact Option.noConfusion h
      · rw [if_neg hA, if_pos ⟨hcase, hb⟩] at h
        exact Option.noConfusion h

/-- A part contained in the query span intersects it (the part can only be
zero-width when the span itself is). -/
theorem sect_part_span {part s : TimeSpan} (h1 : s.begin ≤ part.begin)
    (h2 : part.stop ≤ s.stop) (h3 : part.begin ≤ part.stop)
    (h4 : s.begin < s.stop → part.begin < part.stop) :
    sect part s = some part := by
  have hib : part.begin ⊔ s.begin = part.begin := max_eq_left h1
  have hie : part.stop ⊓ s.stop = part.stop := min_eq_left h2
  simp only [sect, hib, hie, if_neg (not_lt.mpr h3)]
  rcases lt_or_eq_of_le h3 with hlt | heq
  · rw [if_neg (ne_of_lt hlt)]
  · rw [if_pos heq]
    have hsdeg : ¬ s.begin < s.stop := fun hc => absurd (h4 hc) (not_lt.mpr (le_of_eq heq.symm))
    rw [if_neg fun hc => absurd heq (ne_of_lt hc.2),
      if_neg fun hc : part.begin = s.stop ∧ s.begin < s.stop => hsdeg hc.2]

end TimeSpan

/-! ### The event-containment invariant (claim C1) -/

/-- The containment facts of an event with respect to its query span: the
part lies inside the span, is well-formed, is only zero-width when the span
is, and lies inside the whole when a whole is present. -/
def HapInv (s : TimeSpan) (h : Hap α) : Prop :=
  s.begin ≤ h.part.begin ∧ h.part.stop ≤ s.stop ∧ h.part.begin ≤ h.part.stop ∧
  (s.begin < s.stop → h.part.begin < h.part.stop) ∧
  ∀ w ∈ h.whole, w.begin ≤ h.part.begin ∧ h.part.stop ≤ w.stop

/-- A pattern all of whose queries on well-formed spans return events
satisfying `HapInv`. -/
def PatternInv (p : Pattern α) : Prop :=
  ∀ s : TimeSpan, s.begin ≤ s.stop → ∀ h ∈ p.query s, HapInv s h

theorem patternInv_congr {p q : Pattern α} (hq : ∀ s, q.query s = p.query s)
    (hp : PatternInv p) : PatternInv q := by
  intro s hs h hh
  exact hp s hs h (hq s ▸ hh)

theorem patternInv_gap (n : ℚ) : PatternInv (gap n : Pattern α) := by
  intro s _ h hh
  simp [gap] at hh

theorem patternInv_pure (v : α) : PatternInv (pure v) := by
  intro s hs h hh
  simp only [pure, List.mem_map] at hh
  obtain ⟨sub, hsub, rfl⟩ := hh
  obtain ⟨h1, h2, h3, h4, h5⟩ := TimeSpan.spanCycles_mem s hs sub hsub
  refine ⟨h1, h2, h3, h4, ?_⟩
  intro w hw
  simp only [Option.mem_def, Option.some.injEq] at hw
  subst hw
  constructor
  · exact Int.floor_le _
  · exact h5

theorem patternInv_signal (f : ℚ → α) : PatternInv (signal f) := by
  intro s hs h hh
  simp only [signal, List.mem_singleton] at hh
  subst hh
  exact ⟨le_refl _, le_refl _, hs, fun hc => hc, by simp⟩

theorem patternInv_steady (v : α) : PatternInv (steady v) := by
  intro s hs h hh
  simp only [steady, List.mem_singleton] at hh
  subst hh
  exact ⟨le_refl _, le_refl _, hs, fun hc => hc, by simp⟩

theorem patternInv_fmap (f : α → β) {p : Pattern α} (hp : PatternInv p) :
    PatternInv (p.fmap f) := by
  intro s hs h hh
  simp only [Pattern.fmap, List.mem_map] at hh
  obtain ⟨h0, hh0, rfl⟩ := hh
  obtain ⟨h1, h2, h3, h4, h5⟩ := hp s hs h0 hh0
  exact ⟨h1, h2, h3, h4, h5⟩

theorem patternInv_filterValues (t : α → Bool) {p : Pattern α} (hp : PatternInv p) :
    PatternInv (p.filterValues t) := by
  intro s hs h hh
  simp only [Pattern.filterValues, List.mem_filter] at hh
  exact hp s hs h hh.1

theorem patternInv_filterHaps (t : Hap α → Bool) {p : Pattern α} (hp : PatternInv p) :
    PatternInv (p.filterHaps t) := by
  intro s hs h hh
  simp only [Pattern.filterHaps, List.mem_filter] at hh
  exact hp s hs h hh.1

/-- Transport of `HapInv` along a query-time map `f` and a hap-time map `g`
that inverts it, both strictly monotone (the shape shared by `fast`, `early`
and the `slowcat` offset). -/
theorem hapInv_conj {f g : ℚ → ℚ} (hf : StrictMono f) (hg : StrictMono g)
    (hfg : ∀ t, g (f t) = t) {s : TimeSpan} {h : Hap α}
    (hi : HapInv (s.withTime f) h) : HapInv s (h.withTime g) := by
  obtain ⟨h1, h2, h3, h4, h5⟩ := hi
  simp only [TimeSpan.withTime] at h1 h2 h4
  refine ⟨?_, ?_, ?_, ?_, ?_⟩
  · simpa [Hap.withTime, Hap.withSpan, TimeSpan.withTime] using hfg s.begin ▸ hg.monotone h1
  · simpa [Hap.withTime, Hap.withSpan, TimeSpan.withTime] using hfg s.stop ▸ hg.monotone h2
  · simpa [Hap.withTime, Hap.withSpan, TimeSpan.withTime] using hg.monotone h3
  · intro hc
    have := h4 (hf hc)
    simpa [Hap.withTime, Hap.withSpan, TimeSpan.withTime] using hg this
  · intro w hw
    simp only [Hap.withTime, Hap.withSpan, Option.mem_def, Option.map_eq_some'] at hw
    obtain ⟨w0, hw0, rfl⟩ := hw
    obtain ⟨ha, hb⟩ := h5 w0 hw0
    exact ⟨hg.monotone ha, hg.monotone hb⟩

theorem patternInv_fastF {k : ℚ} (hk : 0 < k) {p : Pattern α} (hp : PatternInv p) :
    PatternInv (fastF k p) := by
  intro s hs h hh
  simp only [fastF, List.mem_map] at hh
  obtain ⟨h0, hh0, rfl⟩ := hh
  have hi := hp (s.withTime (· * k)) (by
    simp only [TimeSpan.withTime]
    exact mul_le_mul_of_nonneg_right hs (le_of_lt hk)) h0 hh0
  exact hapInv_conj (f := (· * k)) (g := (· / k))
    (fun a b hab => by exact mul_lt_mul_of_pos_right hab hk)
    (fun a b hab => by exact div_lt_div_of_pos_right hab hk)
    (fun t => by field_simp) hi

theorem patternInv_fast {k : ℚ} (hk : 0 ≤ k) {p : Pattern α} (hp : PatternInv p) :
    PatternInv (fast k p) := by
  rw [fast]
  split_ifs with h
  · exact patternInv_gap 1
  · exact patternInv_fastF (lt_of_le_of_ne hk (Ne.symm h)) hp

theorem patternInv_early (o : ℚ) {p : Pattern α} (hp : PatternInv p) :
    PatternInv (early o p) := by
  intro s hs h hh
  simp only [early, List.mem_map] at hh
  obtain ⟨h0, hh0, rfl⟩ := hh
  have hi := hp (s.withTime (· + o)) (by
    simp only [TimeSpan.withTime]
    exact add_le_add_right hs o) h0 hh0
  exact hapInv_conj (f := (· + o)) (g := (· - o))
    (fun a b hab => by exact add_lt_add_right hab o)
    (fun a b hab => by exact sub_lt_sub_right hab o)
    (fun t => by ring) hi

theorem patternInv_stack {pats : List (Pattern α)}
    (hp : ∀ p ∈ pats, PatternInv p) : PatternInv (stack pats) := by
  intro s hs h hh
  simp only [stack, List.mem_flatten, List.mem_map] at hh
  obtain ⟨l, ⟨p, hpmem, rfl⟩, hhl⟩ := hh
  exact hp p hpmem s hs h hhl

theorem patternInv_splitQueries {p : Pattern α} (hp : PatternInv p) :
    PatternInv p.splitQueries := by
  intro s hs h hh
  simp only [Pattern.splitQueries, List.mem_flatten, List.mem_map] at hh
  obtain ⟨l, ⟨sub, hsubmem, rfl⟩, hhl⟩ := hh
  obtain ⟨hs1, hs2, hs3, hs4, _⟩ := TimeSpan.spanCycles_mem s hs sub hsubmem
  obtain ⟨h1, h2, h3, h4, h5⟩ := hp sub hs3 h hhl
  exact ⟨le_trans hs1 h1, le_trans h2 hs2, h3, fun hc => h4 (hs4 hc), h5⟩

theorem patternInv_slowcat {pats : List (Pattern α)}
    (hp : ∀ p ∈ pats, PatternInv p) : PatternInv (slowcat pats) := by
  rw [slowcat]
  split_ifs with hlen
  · match pats, hlen with
    | [p], _ => exact hp p (List.mem_singleton_self p)
  · refine patternInv_congr (q := Pattern.setSteps _ _) (fun s => rfl) ?_
    refine patternInv_splitQueries ?_
    intro sp hsp h hh
    simp only at hh
    match hpats : pats, hh with
    | [], hh => simp [hpats] at hh
    | q :: qs, hh =>
      revert hh
      simp only
      cases hget : (q :: qs).get? (Int.emod ⌊sp.begin⌋ (q :: qs).length).toNat with
      | none => intro hh; simp at hh
      | some pat =>
        intro hh
        simp only [List.mem_map] at hh
        obtain ⟨h0, hh0, rfl⟩ := hh
        have hmem : pat ∈ q :: qs := List.get?_mem hget
        have hi := hp pat (hpats ▸ hmem) (sp.withTime (· - _)) (by
          simp only [TimeSpan.withTime]
          exact sub_le_sub_right hsp _) h0 hh0
        exact hapInv_conj (f := (· - _)) (g := (· + _))
          (fun a b hab => by exact sub_lt_sub_right hab _)
          (fun a b hab => by exact add_lt_add_right hab _)
          (fun t => by ring) hi

/-- The `wholeOrPart` of an event satisfying the invariant is itself a
well-formed span, zero-width only when the query span is. -/
theorem hapInv_wholeOrPart {s : TimeSpan} {h : Hap α} (hi : HapInv s h) :
    h.wholeOrPart.begin ≤ h.wholeOrPart.stop ∧
    (s.begin < s.stop → h.wholeOrPart.begin < h.wholeOrPart.stop) := by
  obtain ⟨_, _, h3, h4, h5⟩ := hi
  rw [Hap.wholeOrPart]
  cases hwh : h.whole with
  | none => exact ⟨h3, h4⟩
  | some w =>
    obtain ⟨ha, hb⟩ := h5 w (by simp [hwh])
    exact ⟨le_trans ha (le_trans h3 hb),
      fun hc => lt_of_le_of_lt ha (lt_of_lt_of_le (h4 hc) hb)⟩

theorem patternInv_appBoth {pf : Pattern (α → β)} {pv : Pattern α}
    (hf : PatternInv pf) (hv : PatternInv pv) : PatternInv (pf.appBoth pv) := by
  intro s hs h hh
  simp only [Pattern.appBoth, Pattern.appWhole, List.mem_flatten, List.mem_map] at hh
  obtain ⟨l, ⟨hfnc, hfmem, rfl⟩, hhl⟩ := hh
  simp only [List.mem_filterMap] at hhl
  obtain ⟨hval, hvmem, happ⟩ := hhl
  cases hsect : TimeSpan.sect hfnc.part hval.part with
  | none => rw [hsect] at happ; exact Option.noConfusion happ
  | some p =>
    rw [hsect] at happ
    simp only [Option.map_some', Option.some.injEq] at happ
    subst happ
    obtain ⟨f1, f2, f3, f4, f5⟩ := hf s hs hfnc hfmem
    obtain ⟨v1, v2, v3, v4, v5⟩ := hv s hs hval hvmem
    obtain ⟨hp, hple⟩ := TimeSpan.sect_eq_some hsect
    subst hp
    refine ⟨le_trans f1 (le_max_left _ _), le_trans (min_le_left _ _) f2, hple, ?_, ?_⟩
    · intro hc
      exact TimeSpan.sect_nondeg (f4 hc) (v4 hc) hsect
    · intro w hw
      cases hwf : hfnc.whole with
      | none => simp [Pattern.wholeBoth, hwf] at hw
      | some wf =>
        cases hwv : hval.whole with
        | none => simp [Pattern.wholeBoth, hwf, hwv] at hw
        | some wv =>
          simp only [Pattern.wholeBoth, hwf, hwv, Option.mem_def, Option.some.injEq] at hw
          subst hw
          obtain ⟨fa, fb⟩ := f5 wf (by simp [hwf])
          obtain ⟨va, vb⟩ := v5 wv (by simp [hwv])
          constructor
          · exact max_le (le_trans fa (le_max_left _ _)) (le_trans va (le_max_right _ _))
          · exact le_min (le_trans (min_le_left _ _) fb) (le_trans (min_le_right _ _) vb)

theorem patternInv_appLeft {pf : Pattern (α → β)} {pv : Pattern α}
    (hf : PatternInv pf) (hv : PatternInv pv) : PatternInv (pf.appLeft pv) := by
  intro s hs h hh
  simp only [Pattern.appLeft, List.mem_flatten, List.mem_map] at hh
  obtain ⟨l, ⟨hfnc, hfmem, rfl⟩, hhl⟩ := hh
  simp only [List.mem_filterMap] at hhl
  obtain ⟨hval, hvmem, happ⟩ := hhl
  cases hsect : TimeSpan.sect hfnc.part hval.part with
  | none => rw [hsect] at happ; exact Option.noConfusion happ
  | some p =>
    rw [hsect] at happ
    simp only [Option.map_some', Option.some.injEq] at happ
    subst happ
    obtain ⟨f1, f2, f3, f4, f5⟩ := hf s hs hfnc hfmem
    have hwp := hapInv_wholeOrPart (hf s hs hfnc hfmem)
    obtain ⟨v1, v2, v3, v4, v5⟩ := hv hfnc.wholeOrPart hwp.1 hval hvmem
    obtain ⟨hp, hple⟩ := TimeSpan.sect_eq_some hsect
    subst hp
    refine ⟨le_trans f1 (le_max_left _ _), le_trans (min_le_left _ _) f2, hple, ?_, ?_⟩
    · intro hc
      exact TimeSpan.sect_nondeg (f4 hc) (v4 (hwp.2 hc)) hsect
    · intro w hw
      obtain ⟨fa, fb⟩ := f5 w hw
      exact ⟨le_trans fa (le_max_left _ _), le_trans (min_le_left _ _) fb⟩

theorem patternInv_appRight {pf : Pattern (α → β)} {pv : Pattern α}
    (hf : PatternInv pf) (hv : PatternInv pv) : PatternInv (pf.appRight pv) := by
  intro s hs h hh
  simp only [Pattern.appRight, List.mem_flatten, List.mem_map] at hh
  obtain ⟨l, ⟨hval, hvmem, rfl⟩, hhl⟩ := hh
  simp only [List.mem_filterMap] at hhl
  obtain ⟨hfnc, hfmem, happ⟩ := hhl
  cases hsect : TimeSpan.sect hfnc.part hval.part with
  | none => rw [hsect] at happ; exact Option.noConfusion happ
  | some p =>
    rw [hsect] at happ
    simp only [Option.map_some', Option.some.injEq] at happ
    subst happ
    obtain ⟨v1, v2, v3, v4, v5⟩ := hv s hs hval hvmem
    have hwp := hapInv_wholeOrPart (hv s hs hval hvmem)
    obtain ⟨f1, f2, f3, f4, f5⟩ := hf hval.wholeOrPart hwp.1 hfnc hfmem
    obtain ⟨hp, hple⟩ := TimeSpan.sect_eq_some hsect
    subst hp
    refine ⟨le_trans v1 (le_max_right _ _), le_trans (min_le_right _ _) v2, hple, ?_, ?_⟩
    · intro hc
      exact TimeSpan.sect_nondeg (f4 (hwp.2 hc)) (v4 hc) hsect
    · intro w hw
      obtain ⟨va, vb⟩ := v5 w hw
      exact ⟨le_trans va (le_max_right _ _), le_trans (min_le_right _ _) vb⟩

/-! ### Patterns built from the library's combinators

`PExp` is the closure of the core combinators of the library; `denote`
interprets a combinator expression as the pattern the library builds for it.
Derived combinators are reachable inside the grammar: `slow k = fast (1/k)`,
`late o = early (-o)`, `fastcat = slowcat` + `fast`, `degradeBy` =
`fmap`/`appLeft`/`filterValues` over `signal`. -/

inductive PExp : Type → Type 1 where
  | pureE {α : Type} (v : α) : PExp α
  | gapE {α : Type} (n : ℚ) : PExp α
  | signalE {α : Type} (f : ℚ → α) : PExp α
  | fmapE {α β : Type} (f : α → β) (p : PExp α) : PExp β
  | filterE {α : Type} (t : α → Bool) (p : PExp α) : PExp α
  | fastE {α : Type} (k : ℚ) (p : PExp α) : PExp α
  | earlyE {α : Type} (o : ℚ) (p : PExp α) : PExp α
  | stackE {α : Type} (n : ℕ) (ps : Fin n → PExp α) : PExp α
  | slowcatE {α : Type} (n : ℕ) (ps : Fin n → PExp α) : PExp α
  | appBothE {α β : Type} (pf : PExp (α → β)) (pv : PExp α) : PExp β
  | appLeftE {α β : Type} (pf : PExp (α → β)) (pv : PExp α) : PExp β
  | appRightE {α β : Type} (pf : PExp (α → β)) (pv : PExp α) : PExp β

/-- The pattern the library builds for a combinator expression. -/
def denote : {α : Type} → PExp α → Pattern α
  | _, .pureE v => pure v
  | _, .gapE n => gap n
  | _, .signalE f => signal f
  | _, .fmapE f p => (denote p).fmap f
  | _, .filterE t p => (denote p).filterValues t
  | _, .fastE k p => fast k (denote p)
  | _, .earlyE o p => early o (denote p)
  | _, .stackE _ ps => stack (List.ofFn fun i => denote (ps i))
  | _, .slowcatE _ ps => slowcat (List.ofFn fun i => denote (ps i))
  | _, .appBothE pf pv => (denote pf).appBoth (denote pv)
  | _, .appLeftE pf pv => (denote pf).appLeft (denote pv)
  | _, .appRightE pf pv => (denote pf).appRight (denote pv)

/-- Well-formed combinator expressions: `fast` factors are non-negative (a
zero factor is the library's `silence` convention; time-reversing negative
factors are out of scope). -/
inductive Wf : {α : Type} → PExp α → Prop where
  | pureW {α} (v : α) : Wf (.pureE v)
  | gapW {α : Type} (n : ℚ) : Wf (.gapE (α := α) n)
  | signalW {α} (f : ℚ → α) : Wf (.signalE f)
  | fmapW {α β} (f : α → β) {p : PExp α} : Wf p → Wf (.fmapE f p)
  | filterW {α} (t : α → Bool) {p : PExp α} : Wf p → Wf (.filterE t p)
  | fastW {α} {k : ℚ} {p : PExp α} : 0 ≤ k → Wf p → Wf (.fastE k p)
  | earlyW {α} (o : ℚ) {p : PExp α} : Wf p → Wf (.earlyE o p)
  | stackW {α} {n : ℕ} {ps : Fin n → PExp α} :
      (∀ i, Wf (ps i)) → Wf (.stackE n ps)
  | slowcatW {α} {n : ℕ} {ps : Fin n → PExp α} :
      (∀ i, Wf (ps i)) → Wf (.slowcatE n ps)
  | appBothW {α β} {pf : PExp (α → β)} {pv : PExp α} :
      Wf pf → Wf pv → Wf (.appBothE pf pv)
  | appLeftW {α β} {pf : PExp (α → β)} {pv : PExp α} :
      Wf pf → Wf pv → Wf (.appLeftE pf pv)
  | appRightW {α β} {pf : PExp (α → β)} {pv : PExp α} :
      Wf pf → Wf pv → Wf (.appRightE pf pv)

/-- Every well-formed combinator expression denotes a pattern satisfying the
containment invariant. -/
theorem wf_patternInv : ∀ {α : Type} {p : PExp α}, Wf p → PatternInv (denote p) := by
  intro α p hw
  induction hw with
  | pureW v => rw [denote]; exact patternInv_pure v
  | gapW n => rw [denote]; exact patternInv_gap n
  | signalW f => rw [denote]; exact patternInv_signal f
  | fmapW f _ ih => rw [denote]; exact patternInv_fmap f ih
  | filterW t _ ih => rw [denote]; exact patternInv_filterValues t ih
  | fastW hk _ ih => rw [denote]; exact patternInv_fast hk ih
  | earlyW o _ ih => rw [denote]; exact patternInv_early o ih
  | stackW _ ih =>
    rw [denote]
    refine patternInv_stack ?_
    intro q hq
    obtain ⟨i, rfl⟩ := Set.mem_range.mp ((List.mem_ofFn _ _).mp hq)
    exact ih i
  | slowcatW _ ih =>
    rw [denote]
    refine patternInv_slowcat ?_
    intro q hq
    obtain ⟨i, rfl⟩ := Set.mem_range.mp ((List.mem_ofFn _ _).mp hq)
    exact ih i
  | appBothW _ _ ihf ihv => rw [denote]; exact patternInv_appBoth ihf ihv
  | appLeftW _ _ ihf ihv => rw [denote]; exact patternInv_appLeft ihf ihv
  | appRightW _ _ ihf ihv => rw [denote]; exact patternInv_appRight ihf ihv

/-! ### Further helper lemmas -/

namespace TimeSpan

/-- Mirror of `sect_part_span` with the span as the first argument. -/
theorem sect_span_part {part s : TimeSpan} (h1 : s.begin ≤ part.begin)
    (h2 : part.stop ≤ s.stop) (h3 : part.begin ≤ part.stop)
    (h4 : s.begin < s.stop → part.begin < part.stop) :
    sect s part = some part := by
  have hib : s.begin ⊔ part.begin = part.begin := max_eq_right h1
  have hie : s.stop ⊓ part.stop = part.stop := min_eq_right h2
  simp only [sect, hib, hie, if_neg (not_lt.mpr h3)]
  rcases lt_or_eq_of_le h3 with hlt | heq
  · rw [if_neg (ne_of_lt hlt)]
  · rw [if_pos heq]
    have hsdeg : ¬ s.begin < s.stop := fun hc => absurd (h4 hc) (not_lt.mpr (le_of_eq heq.symm))
    rw [if_neg fun hc : part.begin = s.stop ∧ s.begin < s.stop => hsdeg hc.2,
      if_neg fun hc => absurd heq (ne_of_lt hc.2)]

end TimeSpan

namespace Hap

theorem withTime_comp (f g : ℚ → ℚ) (h : Hap α) :
    (h.withTime f).withTime g = h.withTime (fun t => g (f t)) := by
  cases h with
  | mk w p v => cases w <;> simp [withTime, withSpan, TimeSpan.withTime]

theorem withTime_congr {f g : ℚ → ℚ} (hfg : ∀ t, f t = g t) (h : Hap α) :
    h.withTime f = h.withTime g := by
  cases h with
  | mk w p v => cases w <;> simp [withTime, withSpan, TimeSpan.withTime, hfg]

theorem withTime_id (h : Hap α) : h.withTime (fun t => t) = h := by
  cases h with
  | mk w p v => cases w <;> simp [withTime, withSpan, TimeSpan.withTime]

end Hap

/-- Source `fast 1` does not change queries. -/
theorem fastF_one_query (p : Pattern α) (s : TimeSpan) :
    (fastF 1 p).query s = p.query s := by
  have hspan : s.withTime (· * 1) = s := by
    cases s; simp [TimeSpan.withTime]
  have hfun : (Hap.withTime (fun x => x / 1) : Hap α → Hap α) = id := funext fun h => by
    rw [Hap.withTime_congr (fun t => div_one t), Hap.withTime_id]; rfl
  rw [fastF]
  simp only [hspan, hfun, List.map_id]

/-- The lower `tmod` bound (the upper one is `Int.tmod_lt_of_pos`). -/
theorem neg_lt_tmod (a : ℤ) {b : ℤ} (hb : 0 < b) : -b < Int.tmod a b := by
  rcases le_or_lt 0 a with ha | ha
  · have h1 := Int.tmod_nonneg b ha
    omega
  · have key : Int.tmod a b = - Int.tmod (-a) b := by
      rw [Int.tmod_def, Int.tmod_def, Int.neg_tdiv]
      ring
    have h2 := Int.tmod_nonneg b (by omega : (0:ℤ) ≤ -a)
    have h3 := Int.tmod_lt_of_pos (-a) hb
    omega

/-- Every value of the random signal is strictly below `1`. -/
theorem timeToRand_lt_one (t : ℚ) : timeToRand t < 1 := by
  rw [timeToRand, intSeedToRand, abs_div]
  rw [abs_of_pos (by norm_num : (0:ℚ) < 536870912)]
  rw [div_lt_one (by norm_num : (0:ℚ) < 536870912)]
  rw [← Int.cast_abs]
  have h1 := Int.tmod_lt_of_pos (timeToIntSeed t) (by norm_num : (0:ℤ) < 536870912)
  have h2 := neg_lt_tmod (timeToIntSeed t) (by norm_num : (0:ℤ) < 536870912)
  exact_mod_cast abs_lt.mpr ⟨h2, h1⟩

theorem toUint32_zero : toUint32 0 = 0 := by simp [toUint32]

theorem toInt32_zero : toInt32 0 = 0 := by simp [toInt32, toUint32]

theorem jsShl_zero (n : ℕ) : jsShl 0 n = 0 := by simp [jsShl, toInt32_zero]

theorem jsSar_zero (n : ℕ) : jsSar 0 n = 0 := by
  simp [jsSar, toInt32_zero, Int.zero_fdiv]

theorem jsXor_zero : jsXor 0 0 = 0 := by
  rw [jsXor, toUint32_zero]
  have : Nat.xor 0 0 = 0 := rfl
  rw [this, Nat.cast_zero, toInt32_zero]

theorem xorwise_zero : xorwise 0 = 0 := by
  rw [xorwise]
  simp only [jsShl_zero, jsXor_zero, jsSar_zero]

/-- The deterministic draw at time `0` is exactly `0`: the seed pipeline
maps `0` to `0` at every stage. -/
theorem timeToRand_zero : timeToRand 0 = 0 := by
  have h1 : timeToIntSeed 0 = 0 := by
    rw [timeToIntSeed]
    norm_num [_frac, qtrunc, xorwise_zero]
  simp [timeToRand, intSeedToRand, h1]

/-- The filtered random signal used by `degradeBy(1)` never produces an
event. -/
theorem rand_filter_gt_one_empty (s : TimeSpan) :
    (rand.filterValues fun v => decide (1 < v)).query s = [] := by
  simp [Pattern.filterValues, rand, signal, List.filter,
    not_lt_of_gt (timeToRand_lt_one s.begin)]

/-! ## The claims -/

/-- C1: For every pattern built from the library's combinators (the
well-formed combinator grammar `PExp`) and every query state whose span is
well-formed, every event in the returned list has a `part` that intersects
the query span — no event's `part` lies outside the span — and whenever the
event's `whole` is present, `part` is contained in `whole`
(`whole.begin ≤ part.begin ≤ part.end ≤ whole.end`). -/
theorem C1_event_containment {α : Type} (p : PExp α) (hw : Wf p)
    (s : TimeSpan) (hs : s.begin ≤ s.stop) (h : Hap α)
    (hh : h ∈ (denote p).query s) :
    TimeSpan.sect h.part s = some h.part ∧
    s.begin ≤ h.part.begin ∧ h.part.stop ≤ s.stop ∧
    ∀ w ∈ h.whole, w.begin ≤ h.part.begin ∧ h.part.begin ≤ h.part.stop ∧
      h.part.stop ≤ w.stop := by
  obtain ⟨h1, h2, h3, h4, h5⟩ := wf_patternInv hw s hs h hh
  refine ⟨TimeSpan.sect_part_span h1 h2 h3 h4, h1, h2, ?_⟩
  intro w hw'
  obtain ⟨wa, wb⟩ := h5 w hw'
  exact ⟨wa, h3, wb⟩

/-- The unit cycle is its own cycle split. -/
theorem spanCycles_unit : TimeSpan.spanCycles ⟨0, 1⟩ = [⟨0, 1⟩] :=
  TimeSpan.spanCycles_single ⟨0, 1⟩ (by norm_num) (by norm_num)

/-- Source `pure` over the unit cycle returns the one whole-cycle event. -/
theorem pure_query_unit (v : α) :
    (pure v).query ⟨0, 1⟩ = [⟨some ⟨0, 1⟩, ⟨0, 1⟩, v⟩] := by
  simp [pure, spanCycles_unit, wholeCycle, sam, nextSam]

/-- Witness for C1 at a concrete pattern, state and event. -/
theorem C1_event_containment_witness :
    (⟨some ⟨0, 1⟩, ⟨0, 1⟩, 0⟩ : Hap ℕ) ∈
        (denote (PExp.pureE 0)).query ⟨0, 1⟩ ∧
      TimeSpan.sect (⟨0, 1⟩ : TimeSpan) ⟨0, 1⟩ = some ⟨0, 1⟩ := by
  have hmem : (⟨some ⟨0, 1⟩, ⟨0, 1⟩, 0⟩ : Hap ℕ) ∈
      (denote (PExp.pureE 0)).query ⟨0, 1⟩ := by
    rw [denote, pure_query_unit]
    exact List.mem_singleton_self _
  refine ⟨hmem, ?_⟩
  exact (C1_event_containment (PExp.pureE 0) (Wf.pureW 0) ⟨0, 1⟩
    (by norm_num) _ hmem).1

/-- C2: `compress` with `b = e` (degenerate but in range) slips past the
guard, which only tests `b > e`, `b > 1`, `e > 1`, `b < 0`, `e < 0`, and
reaches `Fraction(1).div(e.sub(b))` — a division by zero that raises in the
fraction library instead of returning `silence`; the other invalid shapes do
return `silence` as the claim states. -/
theorem C2_compress_degenerate_raises :
    compress (1/2) (1/2) (pure (0:ℕ)) = .error "Division by zero" ∧
    compress (3/4) (1/4) (pure (0:ℕ)) = .ok silence ∧
    compress (-1/4) (1/2) (pure (0:ℕ)) = .ok silence ∧
    compress (1/2) (5/4) (pure (0:ℕ)) = .ok silence := by
  refine ⟨?_, ?_, ?_, ?_⟩ <;> rw [compress] <;> norm_num

/-- C3: over the first cycle, `degradeBy(1)` indeed returns no events (in
fact it empties every query of every pattern, since every random draw is
strictly below `1`); but `degradeBy(0)` ALSO returns no events on
`pure("x")`: the filter keeps only draws strictly greater than `0`, and
the draw associated with cycle 0 is `timeToRand 0 = 0`.  The claim (and the
function's own documentation, `0 = 0% chance of removal`) requires one
event. -/
theorem C3_degradeBy_boundary :
    (∀ (α : Type) (p : Pattern α) (s : TimeSpan), (degradeBy 1 p).query s = []) ∧
    (degradeBy 0 (pure "x")).query ⟨0, 1⟩ = [] ∧
    timeToRand 0 = 0 := by
  refine ⟨?_, ?_, timeToRand_zero⟩
  · intro α p s
    simp [degradeBy, degradeByWith, Pattern.setSteps, Pattern.appLeft,
      rand_filter_gt_one_empty, List.flatten_eq_nil_iff]
  · simp [degradeBy, degradeByWith, Pattern.setSteps, Pattern.appLeft,
      Pattern.fmap, Pattern.filterValues, rand, signal, pure_query_unit,
      Hap.withValue, Hap.wholeOrPart, timeToRand_zero, List.filter,
      List.flatten_eq_nil_iff]

/-- C4 counterexample: `pace` applied to a stepless pattern does not return
`nothing` — it returns the pattern unchanged (here the continuous `steady 0`,
which still produces an event over `[0,1)`, while `nothing` produces none). -/
theorem C4_counterexample : pace 4 (steady (0:ℕ)) ≠ nothing := by
  intro hc
  have h2 : (pace 4 (steady (0:ℕ))).query ⟨0, 1⟩ = (nothing : Pattern ℕ).query ⟨0, 1⟩ := by
    rw [hc]
  have h3 : (pace 4 (steady (0:ℕ))).query ⟨0, 1⟩ = [⟨none, ⟨0, 1⟩, 0⟩] := rfl
  rw [h3] at h2
  exact List.cons_ne_nil _ _ h2

/-- C4 amended: on a pattern whose `steps` is undefined, the stepwise
operators `take`, `drop`, `shrink` and `grow` return `nothing` (and none of
them calls the logger), but `pace` returns the pattern unchanged. -/
theorem C4_stepless_ops {α : Type} (p : Pattern α) (hp : p.steps = none) :
    (∀ i, take i p = nothing) ∧ (∀ i, drop i p = nothing) ∧
    (∀ a, shrink a p = nothing) ∧ (∀ a, grow a p = nothing) ∧
    (∀ t, pace t p = p) := by
  refine ⟨?_, ?_, ?_, ?_, ?_⟩ <;> intro x <;> simp [take, drop, shrink, grow, pace, hp]

/-- Witness for C4 at the stepless pattern `steady 0`. -/
theorem C4_stepless_ops_witness :
    take 2 (steady (0:ℕ)) = nothing ∧ pace 4 (steady (0:ℕ)) = steady 0 := by
  have h := C4_stepless_ops (steady (0:ℕ)) rfl
  exact ⟨h.1 2, h.2.2.2.2 4⟩

/-- The query of `appBoth`, unfolded. -/
theorem appBoth_query (pf : Pattern (α → β)) (pv : Pattern α) (s : TimeSpan) :
    (pf.appBoth pv).query s =
      ((pf.query s).map fun hf =>
        (pv.query s).filterMap fun hv =>
          (TimeSpan.sect hf.part hv.part).map fun p =>
            (⟨Pattern.wholeBoth hf.whole hv.whole, p, hf.value hv.value⟩ : Hap β)).flatten :=
  rfl

/-- The query of `slow k` for non-zero `k`, unfolded. -/
theorem slow_query {k : ℚ} (hk : ¬ k = 0) (p : Pattern α) (s : TimeSpan) :
    (slow k p).query s =
      ((p.query (s.withTime (· * (1 / k)))).map (Hap.withTime (· / (1 / k)))) := by
  rw [slow, if_neg hk]; rfl

/-- The query of `pure`, unfolded. -/
theorem pure_query (v : α) (s : TimeSpan) :
    (pure v).query s =
      s.spanCycles.map fun sub => ⟨some (wholeCycle sub.begin), sub, v⟩ :=
  rfl

/-- C5 counterexample: `pure(identity).appBoth(p)` is not `p`.  First, for
`p = slow 2 (pure 7)` even over the single-cycle span `[0,1)`: `p`'s event
has whole `[0,2)`, but `appBoth` intersects it with `pure id`'s cycle whole
`[0,1)`, so the returned whole shrinks to `[0,1)`.  Second, over the
two-cycle span `[0,2)` the continuous `steady 0` returns one event but
`pure(id).appBoth(steady 0)` returns two, one per cycle of `pure id`. -/
theorem C5_counterexample :
    ((Pattern.appBoth (pure (id : ℕ → ℕ)) (slow 2 (pure 7))).query ⟨0, 1⟩ ≠
      (slow 2 (pure (7:ℕ))).query ⟨0, 1⟩) ∧
    ((Pattern.appBoth (pure (id : ℕ → ℕ)) (steady 0)).query ⟨0, 2⟩).length = 2 ∧
    ((steady (0:ℕ)).query ⟨0, 2⟩).length = 1 := by
  refine ⟨?_, ?_, rfl⟩
  case refine_2 =>
    have hsc2 : TimeSpan.spanCycles ⟨0, 2⟩ = [⟨0, 1⟩, ⟨1, 2⟩] := by
      rw [TimeSpan.spanCycles]
      rw [if_neg (by norm_num)]
      norm_num [TimeSpan.spanCyclesGo]
    have hs1 : TimeSpan.sect ⟨0, 1⟩ ⟨0, 2⟩ = some ⟨0, 1⟩ :=
      TimeSpan.sect_part_span (by norm_num) (by norm_num) (by norm_num)
        (fun _ => by norm_num)
    have hs2 : TimeSpan.sect ⟨1, 2⟩ ⟨0, 2⟩ = some ⟨1, 2⟩ :=
      TimeSpan.sect_part_span (by norm_num) (by norm_num) (by norm_num)
        (fun _ => by norm_num)
    rw [appBoth_query, pure_query, hsc2]
    simp [steady, hs1, hs2]
  case refine_1 =>
  have hspan : (⟨0, 1⟩ : TimeSpan).withTime (· * (1 / (2:ℚ))) = ⟨0, 1/2⟩ := by
    simp [TimeSpan.withTime]
  have hsc : TimeSpan.spanCycles ⟨0, (1:ℚ)/2⟩ = [⟨0, 1/2⟩] :=
    TimeSpan.spanCycles_single _ (by norm_num) (by norm_num)
  have hval : (slow 2 (pure (7:ℕ))).query ⟨0, 1⟩ = [⟨some ⟨0, 2⟩, ⟨0, 1⟩, 7⟩] := by
    rw [slow_query (by norm_num : ¬ (2:ℚ) = 0), hspan, pure_query, hsc]
    simp [Hap.withTime, Hap.withSpan, TimeSpan.withTime, wholeCycle, sam, nextSam]
  have hsect : TimeSpan.sect ⟨0, 1⟩ ⟨0, 1⟩ = some ⟨0, 1⟩ :=
    TimeSpan.sect_part_span (le_refl _) (le_refl _) (by norm_num) (fun _ => by norm_num)
  have hlhs : (Pattern.appBoth (pure (id : ℕ → ℕ)) (slow 2 (pure 7))).query ⟨0, 1⟩ =
      [⟨some ⟨0, 1⟩, ⟨0, 1⟩, 7⟩] := by
    rw [appBoth_query, pure_query_unit, hval]
    simp [hsect, Pattern.wholeBoth, TimeSpan.sectE]
  rw [hval, hlhs]
  simp

/-- C5 amended: over a query span contained in a single cycle, for any
pattern `p` satisfying the containment invariant, `pure(identity).appBoth(p)`
returns exactly `p`'s events with identical parts and values, except that
each present `whole` is clipped to the intersection with the current cycle
(so equality with `p` holds exactly when `p`'s wholes lie within the cycle;
continuous events are returned unchanged). -/
theorem C5_appBoth_identity {α : Type} (p : Pattern α) (hp : PatternInv p)
    (s : TimeSpan) (h1 : s.begin ≤ s.stop) (h2 : s.stop ≤ ⌊s.begin⌋ + 1) :
    (Pattern.appBoth (pure (id : α → α)) p).query s =
      (p.query s).map fun h =>
        ⟨h.whole.map fun w => ⟨max (sam s.begin) w.begin, min (nextSam s.begin) w.stop⟩,
          h.part, h.value⟩ := by
  have hpure : (pure (id : α → α)).query s = [⟨some (wholeCycle s.begin), s, id⟩] := by
    rw [pure_query, TimeSpan.spanCycles_single s h1 h2]
    rfl
  rw [appBoth_query, hpure]
  simp only [List.map_cons, List.map_nil, List.flatten_cons, List.flatten_nil,
    List.append_nil]
  suffices key : ∀ l : List (Hap α), (∀ h ∈ l, HapInv s h) →
      (l.filterMap fun hv => (TimeSpan.sect s hv.part).map fun pp =>
        (⟨Pattern.wholeBoth (some (wholeCycle s.begin)) hv.whole, pp, id hv.value⟩ : Hap α)) =
      l.map fun h =>
        ⟨h.whole.map fun w => ⟨max (sam s.begin) w.begin, min (nextSam s.begin) w.stop⟩,
          h.part, h.value⟩ by
    exact key (p.query s) (hp s h1)
  intro l hl
  induction l with
  | nil => rfl
  | cons hd tl ih =>
    rw [List.filterMap_cons, List.map_cons]
    obtain ⟨a1, a2, a3, a4, _⟩ := hl hd (List.mem_cons_self hd tl)
    rw [TimeSpan.sect_span_part a1 a2 a3 a4]
    simp only [Option.map_some']
    rw [ih (fun h hh => hl h (List.mem_cons_of_mem hd hh))]
    cases hd.whole <;> rfl

/-- Witness for C5 at `p = pure 3` over the unit cycle. -/
theorem C5_appBoth_identity_witness :
    (Pattern.appBoth (pure (id : ℕ → ℕ)) (pure 3)).query ⟨0, 1⟩ =
      ((pure (3:ℕ)).query ⟨0, 1⟩).map fun h =>
        ⟨h.whole.map fun w => ⟨max (sam 0) w.begin, min (nextSam 0) w.stop⟩,
          h.part, h.value⟩ :=
  C5_appBoth_identity (pure 3) (patternInv_pure 3) ⟨0, 1⟩ (by norm_num) (by norm_num)

/-- C6 counterexample: `fastcat` of a single stepless pattern returns the
pattern unchanged, so its `steps` is undefined rather than `n = 1`. -/
theorem C6_counterexample : (fastcat [steady (0:ℕ)]).steps ≠ some 1 := by
  have h : (fastcat [steady (0:ℕ)]).steps = none := rfl
  rw [h]
  simp

/-- C6 amended: `fastcat(p1,…,pn)` answers every query exactly as
`slowcat(p1,…,pn).fast(n)` (for any non-empty list), and its `steps` is `n`
whenever `n ≥ 2`; for `n = 1` the source returns `p1` itself, keeping `p1`'s
own steps. -/
theorem C6_fastcat_slowcat {α : Type} (pats : List (Pattern α)) (hne : pats ≠ []) :
    (∀ s, (fastcat pats).query s = (fast (pats.length : ℚ) (slowcat pats)).query s) ∧
    (2 ≤ pats.length → (fastcat pats).steps = some (pats.length : ℚ)) := by
  constructor
  · intro s
    by_cases hlen : 1 < pats.length
    · rw [fastcat, if_pos hlen, fast,
        if_neg (Nat.cast_ne_zero.mpr (by omega) : (pats.length : ℚ) ≠ 0)]
      rfl
    · have h1 : pats.length = 1 := by
        have h0 : 0 < pats.length := List.length_pos.mpr hne
        omega
      rw [fastcat, if_neg hlen, fast, if_neg (by rw [h1]; norm_num), h1, Nat.cast_one]
      exact (fastF_one_query _ s).symm
  · intro h2
    rw [fastcat, if_pos (by omega)]
    rfl

/-- Witness for C6 on two patterns. -/
theorem C6_fastcat_slowcat_witness :
    (fastcat [pure (0:ℕ), pure 1]).steps = some 2 ∧
    (fastcat [pure (0:ℕ), pure 1]).query ⟨0, 1⟩ =
      (fast 2 (slowcat [pure (0:ℕ), pure 1])).query ⟨0, 1⟩ := by
  have h := C6_fastcat_slowcat [pure (0:ℕ), pure 1] (by simp)
  constructor
  · simpa using h.2 (by norm_num)
  · simpa using h.1 ⟨0, 1⟩

/-- Rational floors divide through by a natural denominator. -/
theorem floor_div_floor (a : ℚ) (n : ℕ) (hn : 0 < n) :
    ⌊a / (n:ℚ)⌋ = ⌊(⌊a⌋ : ℚ) / (n:ℚ)⌋ := by
  have hn' : (0:ℚ) < n := by exact_mod_cast hn
  have key : ∀ m : ℤ, m ≤ ⌊a / (n:ℚ)⌋ ↔ m ≤ ⌊(⌊a⌋:ℚ) / (n:ℚ)⌋ := by
    intro m
    rw [Int.le_floor, Int.le_floor, le_div_iff hn', le_div_iff hn']
    constructor
    · intro h
      have h2 : ((m * n : ℤ) : ℚ) ≤ a := by push_cast; exact h
      have h3 := Int.le_floor.mpr h2
      have h4 : ((m * n : ℤ) : ℚ) ≤ (⌊a⌋ : ℚ) := by exact_mod_cast h3
      push_cast at h4
      exact h4
    · intro h
      have h2 : ((m * n : ℤ) : ℚ) ≤ (⌊a⌋ : ℚ) := by push_cast; exact h
      have h3 : ((m * n : ℤ) : ℚ) ≤ a := le_trans h2 (Int.floor_le a)
      push_cast at h3
      exact h3
  exact le_antisymm ((key _).mp (le_refl _)) ((key _).mpr (le_refl _))

/-- C7: for `n ≥ 2` patterns and a query span within the single cycle
`c = s.begin.sam()`, `slowcat` answers the query from pattern `i = c mod n`,
mapping the query span back by `offset = c.floor() - (c / n).floor()` and
shifting the returned events' times forward by the same offset. -/
theorem C7_slowcat_single_cycle {α : Type} (pats : List (Pattern α))
    (hn : 2 ≤ pats.length) (s : TimeSpan) (hs1 : s.begin ≤ s.stop)
    (hs2 : s.stop ≤ ⌊s.begin⌋ + 1) :
    (slowcat pats).query s =
      ((pats.getD (⌊s.begin⌋ % (pats.length : ℤ)).toNat nothing).query
          (s.withTime
            (· - ((⌊s.begin⌋ : ℚ) - (⌊(⌊s.begin⌋ : ℚ) / (pats.length : ℚ)⌋ : ℚ))))).map
        (Hap.withTime
          (· + ((⌊s.begin⌋ : ℚ) - (⌊(⌊s.begin⌋ : ℚ) / (pats.length : ℚ)⌋ : ℚ)))) := by
  have hlen1 : ¬ pats.length = 1 := by omega
  rw [slowcat, if_neg hlen1]
  show (Pattern.splitQueries _).query s = _
  rw [Pattern.splitQueries]
  show ((s.spanCycles.map _).flatten) = _
  rw [TimeSpan.spanCycles_single s hs1 hs2]
  simp only [List.map_cons, List.map_nil, List.flatten_cons, List.flatten_nil,
    List.append_nil]
  match hpats : pats, hn with
  | q :: qs, _ =>
    show (match q :: qs with
      | [] => []
      | _ => _) = _
    simp only
    have hpos : (0:ℤ) < ((q :: qs).length : ℤ) := by
      have := List.length_cons q qs
      omega
    have hidx : ((⌊s.begin⌋ % ((q :: qs).length : ℤ)).toNat) < (q :: qs).length := by
      have hlt := Int.emod_lt_of_pos ⌊s.begin⌋ hpos
      have hge := Int.emod_nonneg ⌊s.begin⌋ (by omega : ((q :: qs).length : ℤ) ≠ 0)
      omega
    rw [List.get?_eq_get hidx]
    rw [List.getD_eq_get?, List.get?_eq_get hidx]
    show List.map _ _ = List.map _ _
    rw [floor_div_floor s.begin (q :: qs).length (by omega)]
    rfl

/-- Witness for C7 at cycle 5 of a two-pattern `slowcat`. -/
theorem C7_slowcat_single_cycle_witness :
    (slowcat [pure (10:ℕ), pure 20]).query ⟨5, 11/2⟩ =
      ((([pure (10:ℕ), pure 20]).getD
            (⌊(5:ℚ)⌋ % ((2:ℕ) : ℤ)).toNat nothing).query
          ((⟨5, 11/2⟩ : TimeSpan).withTime
            (· - ((⌊(5:ℚ)⌋ : ℚ) - (⌊(⌊(5:ℚ)⌋ : ℚ) / ((2:ℕ) : ℚ)⌋ : ℚ))))).map
        (Hap.withTime
          (· + ((⌊(5:ℚ)⌋ : ℚ) - (⌊(⌊(5:ℚ)⌋ : ℚ) / ((2:ℕ) : ℚ)⌋ : ℚ)))) := by
  have h := C7_slowcat_single_cycle [pure (10:ℕ), pure 20] (by norm_num)
    ⟨5, 11/2⟩ (by norm_num) (by norm_num)
  simpa using h

/-- C8: `p.fast(k).slow(k)` answers every query exactly as `p` does and
keeps `p`'s steps, for every non-zero rational `k`; and `fast 0` and
`slow 0` both return `silence`. -/
theorem C8_fast_slow_inverse {α : Type} (k : ℚ) (p : Pattern α) :
    (k ≠ 0 →
      (∀ s, (slow k (fast k p)).query s = p.query s) ∧
      (slow k (fast k p)).steps = p.steps) ∧
    fast 0 p = silence ∧ slow 0 p = silence := by
  refine ⟨?_, by rw [fast, if_pos rfl], by rw [slow, if_pos rfl]⟩
  intro hk
  constructor
  · intro s
    rw [slow_query hk, fast, if_neg hk]
    show (((p.query _).map _).map _) = _
    rw [List.map_map]
    have hspan : (s.withTime (· * (1 / k))).withTime (· * k) = s := by
      cases s
      simp only [TimeSpan.withTime, TimeSpan.mk.injEq]
      constructor <;> field_simp
    rw [show ((s.withTime (· * (1 / k))).withTime (· * k)) = s from hspan]
    have hfun : ((Hap.withTime (· / (1 / k))) ∘ (Hap.withTime (· / k)) : Hap α → Hap α)
        = id := by
      funext h
      show (h.withTime (· / k)).withTime (· / (1 / k)) = id h
      rw [Hap.withTime_comp]
      rw [Hap.withTime_congr (g := fun t => t) fun t => by field_simp]
      rw [Hap.withTime_id]
      rfl
    rw [hfun, List.map_id]
  · rw [slow, if_neg hk, fast, if_neg hk]
    rfl

/-- Witness for C8 at `k = 2`, `p = pure 0`. -/
theorem C8_fast_slow_inverse_witness :
    (slow 2 (fast 2 (pure (0:ℕ)))).query ⟨0, 1⟩ = (pure (0:ℕ)).query ⟨0, 1⟩ :=
  ((C8_fast_slow_inverse 2 (pure 0)).1 (by norm_num)).1 ⟨0, 1⟩

/-- C9: whenever a pattern's query function raises for a span, `queryArc`
catches the exception, logs it as an error through the injected logger, and
returns the empty list instead of propagating. -/
theorem C9_queryArc_catches {α : Type} (p : PatternE α) (b e : ℚ) (msg : String)
    (h : p.query ⟨b, e⟩ = .error msg) :
    queryArcE p b e = ([], [⟨"[query]: " ++ msg, "error"⟩]) := by
  rw [queryArcE, h]

/-- Witness for C9 on a query that always raises. -/
theorem C9_queryArc_catches_witness :
    queryArcE (⟨fun _ => .error "boom"⟩ : PatternE ℕ) 0 1 =
      ([], [⟨"[query]: " ++ "boom", "error"⟩]) :=
  C9_queryArc_catches ⟨fun _ => .error "boom"⟩ 0 1 "boom" rfl

/-- C10: `polymeter` first discards every argument without steps (so it
equals the same call on the filtered list); with no stepped argument left it
returns `silence`; when the lcm of the remaining step counts is `0` it
returns `nothing`; and `zip` filters its arguments the same way. -/
theorem C10_polymeter_zip_filter {α : Type} (args : List (Pattern α)) :
    polymeter args = polymeter (args.filter fun a => a.steps.isSome) ∧
    ((args.filter fun a => a.steps.isSome) = [] → polymeter args = silence) ∧
    ((args.filter fun a => a.steps.isSome) ≠ [] →
      lcmList ((args.filter fun a => a.steps.isSome).filterMap (·.steps)) = 0 →
      polymeter args = nothing) ∧
    zip args = zip (args.filter fun a => a.steps.isSome) := by
  refine ⟨?_, ?_, ?_, ?_⟩
  · rw [polymeter, polymeter, List.filter_filter]
    simp
  · intro h
    rw [polymeter, h]
    rfl
  · intro h1 h2
    rw [polymeter]
    have hne : (args.filter fun a => a.steps.isSome).isEmpty = false := by
      cases hf : args.filter fun a => a.steps.isSome with
      | nil => exact absurd hf h1
      | cons x xs => rfl
    rw [hne]
    show (if False = true then silence else _) = _
    rw [if_neg (by simp)]
    rw [if_pos h2]
  · rw [zip, zip, List.filter_filter]
    simp

/-- Witness for C10: `polymeter` of a single stepless (continuous) pattern is
`silence`, and of `nothing` with `pure` is `nothing` (zero lcm). -/
theorem C10_polymeter_zip_filter_witness :
    polymeter [steady (0:ℕ)] = silence ∧
    polymeter [nothing, pure (0:ℕ)] = nothing := by
  constructor
  · exact (C10_polymeter_zip_filter [steady (0:ℕ)]).2.1 rfl
  · have hfil : ([nothing, pure (0:ℕ)].filter fun a => a.steps.isSome)
        = [nothing, pure 0] := rfl
    refine (C10_polymeter_zip_filter [nothing, pure (0:ℕ)]).2.2.1
      (by rw [hfil]; simp) ?_
    rw [hfil]
    show lcmList [(0:ℚ), 1] = 0
    show qlcm 0 1 = 0
    rw [qlcm]
    norm_num

end Strudel
